import Mathlib

/-!
Verification development for `eorsky/visibility.py`.

The Python module computes radio-interferometer visibilities from a HEALPix
sky shell.  This file gives a shallow embedding of its data model and
operations over exact reals (`ℝ`, `ℂ` stand for the floating point values),
and proves properties of that embedding.

External library calls (healpy's `ang2vec`/`query_disc`/`pix2vec`) are kept
abstract as fields of the `HPExt` parameter structure; everything written in
`visibility.py` itself is translated directly.  Python exceptions are
modelled with `Except Err`.
-/

noncomputable section

/-- Speed of light in m/s, the value of astropy's `c.to('m/s').value`. -/
def c_ms : ℝ := 299792458

/-- Embedding of `jy2Tstr(f, bm)`: the `[K sr] / [Jy]` conversion factor
versus frequency `f` in Hz, with reference area `bm` (steradian). -/
def jy2Tstr (f : ℝ) (bm : ℝ := 1) : ℝ :=
  let c_cmps := c_ms * 100
  let k_boltz : ℝ := 1.380658e-16
  let lam := c_cmps / f
  1e-23 * lam ^ 2 / (2 * k_boltz * bm)

/-- Python exception kinds raised by `visibility.py`. -/
inductive Err
  | notImplementedError
  | keyError
  | attributeError
  | assertionError
  | valueError
deriving DecidableEq

/-- The two analytic beam variants held by `analyticbeam` after `__init__`
(for `gaussian`, the stored `sigma` is already converted to radians). -/
inductive Beam
  | uniform
  | gaussian (sigma : ℝ)

/-- The literal beam-type tag `"uniform"`. -/
def uniformName : String := "uniform"

/-- The literal beam-type tag `"gaussian"`. -/
def gaussianName : String := "gaussian"

/-- Embedding of `analyticbeam.__init__`: rejects unknown beam types, requires
`sigma` for a gaussian beam and stores `sigma * pi / 180` (degrees to
radians). -/
def analyticbeam_init (beam_type : String) (sigma : Option ℝ := none) :
    Except Err Beam :=
  if beam_type ≠ uniformName ∧ beam_type ≠ gaussianName then
    .error .notImplementedError
  else if beam_type = gaussianName then
    match sigma with
    | none => .error .keyError
    | some s => .ok (.gaussian (s * Real.pi / 180))
  else
    .ok .uniform

/-- Embedding of `analyticbeam.beam_val`: uniform beams return `1`, gaussian
beams return `exp(-za^2 / (2 sigma^2))`; the `freq_Hz` argument is accepted
and ignored, as in the source. -/
def beam_val (b : Beam) (az za : ℝ) (freq_Hz : Option ℝ := none) : ℝ :=
  match b with
  | .uniform => 1
  | .gaussian sigma => Real.exp (-(za ^ 2) / (2 * sigma ^ 2))

/-- The direction-cosine stack `lmn` of `make_fringe`, for one pixel:
`(sin az * sin za, cos az * sin za, cos za)`. -/
def lmn1 (az za : ℝ) : Fin 3 → ℝ :=
  ![Real.sin az * Real.sin za, Real.cos az * Real.sin za, Real.cos za]

/-- The `uvw` column of `make_fringe` for one frequency:
`np.outer(enu, 1/(c_ms/freq))`. -/
def uvw1 (enu : Fin 3 → ℝ) (freqv : ℝ) : Fin 3 → ℝ :=
  fun j => enu j * (1 / (c_ms / freqv))

/-- One element of the `einsum("jk,jl->kl", lmn, uvw)` contraction of
`make_fringe`. -/
def udotl1 (az za freqv : ℝ) (enu : Fin 3 → ℝ) : ℝ :=
  ∑ j : Fin 3, lmn1 az za j * uvw1 enu freqv j

/-- One element of the fringe array of `make_fringe`:
`cos(2 pi u.l) + i sin(2 pi u.l)`. -/
def fringe1 (az za freqv : ℝ) (enu : Fin 3 → ℝ) : ℂ :=
  ⟨Real.cos (2 * Real.pi * udotl1 az za freqv enu),
   Real.sin (2 * Real.pi * udotl1 az za freqv enu)⟩

/-- Embedding of `make_fringe(az, za, freq, enu)`; all numpy operations are
elementwise over the pixel index `k` and frequency index `l`, so the array is
the function of the two indices. -/
def make_fringe (az za freq : ℕ → ℝ) (enu : Fin 3 → ℝ) : ℕ → ℕ → ℂ :=
  fun k l => fringe1 (az k) (za k) (freq l) enu

/-- Modelled from the spec's words (for the refinement claim about
`make_fringe`): `fringe[pixel, frequency] = cos(2 pi u.l) + i sin(2 pi u.l)`
with `l = (sin az sin za, cos az sin za, cos za)` and `u = enu / wavelength`,
`wavelength = c / freq`. -/
def fringe_spec (az za freq : ℕ → ℝ) (enu : Fin 3 → ℝ) : ℕ → ℕ → ℂ :=
  fun k l =>
    let lvec : Fin 3 → ℝ :=
      ![Real.sin (az k) * Real.sin (za k),
        Real.cos (az k) * Real.sin (za k),
        Real.cos (za k)]
    let wavelength := c_ms / freq l
    let u : Fin 3 → ℝ := fun j => enu j / wavelength
    ⟨Real.cos (2 * Real.pi * ∑ j : Fin 3, u j * lvec j),
     Real.sin (2 * Real.pi * ∑ j : Fin 3, u j * lvec j)⟩

/-- Embedding of the `baseline` class: it stores `ant1_enu - ant2_enu`. -/
structure Baseline where
  enu : Fin 3 → ℝ

/-- Embedding of `baseline.__init__`. -/
def baseline_init (ant1_enu ant2_enu : Fin 3 → ℝ) : Baseline :=
  ⟨fun j => ant1_enu j - ant2_enu j⟩

/-- Embedding of `baseline.get_fringe`.  The Python `az *= pi/180` and
`za *= pi/180` mutate the caller's arrays in place, so the embedding returns
the post-call state of the two arrays together with the fringe:
`((az after call, za after call), fringe)`. -/
def get_fringe (bl : Baseline) (az za : ℕ → ℝ) (freq_Hz : ℕ → ℝ)
    (degrees : Bool := false) : ((ℕ → ℝ) × (ℕ → ℝ)) × (ℕ → ℕ → ℂ) :=
  let az' := if degrees then fun k => az k * (Real.pi / 180) else az
  let za' := if degrees then fun k => za k * (Real.pi / 180) else za
  ((az', za'), make_fringe az' za' freq_Hz bl.enu)

/-- C4: `make_fringe` returns exactly the spec's fringe
`cos(2 pi u.l) + i sin(2 pi u.l)` with `l = (sin az sin za, cos az sin za,
cos za)` and `u = enu / wavelength` at each frequency. -/
theorem make_fringe_eq_spec (az za freq : ℕ → ℝ) (enu : Fin 3 → ℝ)
    (k l : ℕ) : make_fringe az za freq enu k l = fringe_spec az za freq enu k l := by
  have hsum : udotl1 (az k) (za k) (freq l) enu =
      ∑ j : Fin 3, enu j / (c_ms / freq l) *
        (![Real.sin (az k) * Real.sin (za k),
           Real.cos (az k) * Real.sin (za k),
           Real.cos (za k)] j) := by
    simp only [udotl1, lmn1, uvw1, Fin.sum_univ_three,
      Matrix.cons_val_zero, Matrix.cons_val_one, Matrix.head_cons,
      Matrix.cons_val_two, Matrix.tail_cons]
    ring
  simp only [make_fringe, fringe1, fringe_spec, hsum]

/-- C6: at a zero baseline vector `enu = (0,0,0)`, every element of the fringe
array is `1 + 0i`. -/
theorem make_fringe_zero_baseline (az za freq : ℕ → ℝ) (k l : ℕ) :
    make_fringe az za freq ![0, 0, 0] k l = 1 := by
  have h0 : udotl1 (az k) (za k) (freq l) ![0, 0, 0] = 0 := by
    simp [udotl1, uvw1, Fin.sum_univ_three]
  simp only [make_fringe, fringe1, h0, mul_zero, Real.cos_zero, Real.sin_zero]
  exact Complex.ext rfl rfl

/-- C10: with `degrees=True`, `get_fringe` scales the caller's `az` and `za`
arrays in place by `pi/180`; with `degrees=False` it leaves them unchanged. -/
theorem get_fringe_degrees_mutation (bl : Baseline) (az za freq : ℕ → ℝ) :
    (get_fringe bl az za freq true).1.1 = (fun k => az k * (Real.pi / 180)) ∧
    (get_fringe bl az za freq true).1.2 = (fun k => za k * (Real.pi / 180)) ∧
    (get_fringe bl az za freq false).1.1 = az ∧
    (get_fringe bl az za freq false).1.2 = za := by
  refine ⟨rfl, rfl, rfl, rfl⟩

/-- C8: a gaussian beam constructed from a degree sigma `s` stores
`s * pi / 180`, evaluates to exactly `1` at zenith angle `0`, strictly
decreases as the zenith angle grows over `za ≥ 0`, and is independent of the
frequency argument. -/
theorem gaussian_beam_peak_and_antitone (s : ℝ) (hs : s ≠ 0) :
    analyticbeam_init gaussianName (some s) =
      Except.ok (Beam.gaussian (s * Real.pi / 180)) ∧
    (∀ az f, beam_val (Beam.gaussian (s * Real.pi / 180)) az 0 f = 1) ∧
    (∀ az f za₁ za₂, 0 ≤ za₁ → za₁ < za₂ →
      beam_val (Beam.gaussian (s * Real.pi / 180)) az za₂ f <
        beam_val (Beam.gaussian (s * Real.pi / 180)) az za₁ f) ∧
    (∀ az za f₁ f₂, beam_val (Beam.gaussian (s * Real.pi / 180)) az za f₁ =
      beam_val (Beam.gaussian (s * Real.pi / 180)) az za f₂) := by
  have hσ : s * Real.pi / 180 ≠ 0 :=
    div_ne_zero (mul_ne_zero hs Real.pi_ne_zero) (by norm_num)
  refine ⟨rfl, ?_, ?_, ?_⟩
  · intro az f
    simp [beam_val]
  · intro az f za₁ za₂ h0 hlt
    have hpos : (0 : ℝ) < 2 * (s * Real.pi / 180) ^ 2 := by positivity
    have hsq : za₁ ^ 2 < za₂ ^ 2 := by nlinarith
    simp only [beam_val]
    exact Real.exp_lt_exp.mpr (by apply div_lt_div_of_pos_right _ hpos; linarith)
  · intro az za f₁ f₂
    rfl

/-- Witness for C8 at `s = 1`, evaluated at zenith angles `0 < 1`. -/
theorem gaussian_beam_peak_and_antitone_witness :
    beam_val (Beam.gaussian (1 * Real.pi / 180)) 0 0 none = 1 ∧
    beam_val (Beam.gaussian (1 * Real.pi / 180)) 0 1 none <
      beam_val (Beam.gaussian (1 * Real.pi / 180)) 0 0 none :=
  ⟨(gaussian_beam_peak_and_antitone 1 one_ne_zero).2.1 0 none,
   (gaussian_beam_peak_and_antitone 1 one_ne_zero).2.2.1 0 none 0 1 le_rfl
     one_pos⟩

/-- A 3-vector of reals, for the unit direction vectors handled by
`calc_azza`. -/
structure V3 where
  x : ℝ
  y : ℝ
  z : ℝ

/-- Dot product of two `V3`, as in `np.tensordot(.., .., 1)` per element. -/
def dot3 (a b : V3) : ℝ := a.x * b.x + a.y * b.y + a.z * b.z

/-- Cross product of two `V3`, as in `np.cross`. -/
def cross3 (a b : V3) : V3 :=
  ⟨a.y * b.z - a.z * b.y, a.z * b.x - a.x * b.z, a.x * b.y - a.y * b.x⟩

/-- Degrees to radians, `np.radians`. -/
def radians (d : ℝ) : ℝ := d * (Real.pi / 180)

/-- Two-argument arctangent `np.arctan2(y, x)`, realized as the argument of
the complex number `x + i y` (range `(-pi, pi]`). -/
def atan2 (y x : ℝ) : ℝ := Complex.arg ⟨x, y⟩

/-- Floating `%` with a positive modulus, as numpy computes it:
`a - b * floor(a / b)`. -/
def fmod (a b : ℝ) : ℝ := a - b * ⌊a / b⌋

/-- The healpy calls used by `calc_azza`; healpy is an external library, so
its three functions are parameters of the embedding. -/
structure HPExt where
  ang2vec : ℝ → ℝ → V3
  query_disc : ℕ → V3 → ℝ → List ℕ
  pix2vec : ℕ → ℕ → V3

/-- The result triple `(za_arr, az_arr, pix)` of `calc_azza`. -/
structure AzzaOut where
  za : List ℝ
  az : List ℝ
  pix : List ℕ

/-- The scalar the pixel-frame `xvec` of `calc_azza` is divided by:
`np.sin(colat)` with `colat = np.radians(90 - center[1])`.  Named so the
pole-degeneracy claim can speak about it. -/
def calc_azza_xdiv (center : ℝ × ℝ) : ℝ := Real.sin (radians (90 - center.2))

/-- The body of `calc_azza` once the field of view is known to be set:
select pixels in a disc of radius `fov/2` degrees around the pointing
center, build the tangent frame `(xvec, yvec, cvec)` and return zenith
angles `arccos(s.z)` and azimuths `(arctan2(s.x, s.y) + pi) % (2 pi)`. -/
def azza_calc (E : HPExt) (fov : ℝ) (Nside : ℕ) (center : ℝ × ℝ) : AzzaOut :=
  let radius := fov * Real.pi / 180 * (1 / 2)
  let cvec := E.ang2vec center.1 center.2
  let pix := E.query_disc Nside cvec radius
  let vecs := pix.map (E.pix2vec Nside)
  let xvec : V3 := ⟨-cvec.y * (1 / calc_azza_xdiv center),
                    cvec.x * (1 / calc_azza_xdiv center), 0⟩
  let yvec := cross3 cvec xvec
  { za := vecs.map (fun v => Real.arccos (dot3 v cvec)),
    az := vecs.map (fun v =>
      fmod (atan2 (dot3 v xvec) (dot3 v yvec) + Real.pi) (2 * Real.pi)),
    pix := pix }

/-- Embedding of `observatory.calc_azza` with `return_inds=True`: raises
`AttributeError` when `self.fov` is unset, otherwise computes the za/az/pix
arrays. -/
def calc_azza (E : HPExt) (fov : Option ℝ) (Nside : ℕ) (center : ℝ × ℝ) :
    Except Err AzzaOut :=
  match fov with
  | none => .error .attributeError
  | some fovv => .ok (azza_calc E fovv Nside center)

/-- Modelled from the spec's words (for the azimuth-convention claim):
azimuth is `atan2(s.x, s.y)` wrapped into `[0, 2 pi)`, with no shift. -/
def az_spec (sdotx sdoty : ℝ) : ℝ := fmod (atan2 sdotx sdoty) (2 * Real.pi)

/-- Helper: `x % (2 pi) = x` for `0 ≤ x < 2 pi`. -/
theorem fmod_two_pi_eq_self {x : ℝ} (h0 : 0 ≤ x) (h1 : x < 2 * Real.pi) :
    fmod x (2 * Real.pi) = x := by
  have hpos : (0 : ℝ) < 2 * Real.pi := by positivity
  have : ⌊x / (2 * Real.pi)⌋ = 0 := by
    refine Int.floor_eq_zero_iff.mpr ?_
    constructor
    · exact div_nonneg h0 hpos.le
    · rw [div_lt_one hpos]
      exact h1
  simp [fmod, this]

/-- C5 (code bug): a concrete pointing at `(lon, lat) = (0, 0)` and a single
pixel lying exactly on the local North-frame (`yvec`) axis.  The source's
inline comment and the spec say the azimuth there is `0`; the code computes
`(arctan2(0, 1) + pi) % (2 pi) = pi` because of the `+ pi` shift, while the
spec's wrapped `atan2` value is `0`. -/
theorem calc_azza_azimuth_shifted :
    ∃ out : AzzaOut,
      calc_azza ⟨fun _ _ => ⟨1, 0, 0⟩, fun _ _ _ => [0], fun _ _ => ⟨0, 0, 1⟩⟩
          (some 100) 1 (0, 0) = Except.ok out ∧
      out.az = [Real.pi] ∧
      az_spec 0 (1 / calc_azza_xdiv (0, 0)) = 0 ∧
      Real.pi ≠ 0 := by
  have hdiv : calc_azza_xdiv (0 : ℝ × ℝ) = 1 := by
    have h90 : radians (90 - (0 : ℝ)) = Real.pi / 2 := by
      unfold radians; ring
    rw [calc_azza_xdiv, show ((0 : ℝ × ℝ)).2 = (0 : ℝ) from rfl, h90,
      Real.sin_pi_div_two]
  have harg : atan2 0 1 = 0 := by
    show Complex.arg ⟨1, 0⟩ = 0
    have h1 : (⟨1, 0⟩ : ℂ) = 1 := by
      apply Complex.ext <;> simp
    rw [h1, Complex.arg_one]
  refine ⟨_, rfl, ?_, ?_, Real.pi_ne_zero⟩
  · show (azza_calc _ 100 1 (0, 0)).az = [Real.pi]
    simp only [azza_calc, List.map_cons, List.map_nil, dot3, cross3]
    norm_num [hdiv, harg]
    exact fmod_two_pi_eq_self Real.pi_pos.le (by nlinarith [Real.pi_pos])
  · rw [show ((0 : ℝ), (0 : ℝ)) = (0 : ℝ × ℝ) from rfl, hdiv, az_spec]
    norm_num [harg]
    have hpos : (0 : ℝ) < 2 * Real.pi := by positivity
    simp [fmod, Int.floor_eq_zero_iff, hpos.le]

/-- C9 (code bug): at a celestial pole the colatitude is `0` (or `180`)
degrees, so the scalar `sin(colat)` that `calc_azza` divides by to build the
local x axis is exactly `0`; the code has no fallback branch for this case. -/
theorem calc_azza_pole_divisor_zero (lon : ℝ) :
    calc_azza_xdiv (lon, 90) = 0 ∧ calc_azza_xdiv (lon, -90) = 0 := by
  constructor
  · have : radians (90 - (90 : ℝ)) = 0 := by
      unfold radians; ring
    rw [calc_azza_xdiv, this, Real.sin_zero]
  · have : radians (90 - (-90 : ℝ)) = Real.pi := by
      unfold radians; ring
    rw [calc_azza_xdiv, this, Real.sin_pi]

/-- Embedding of the `observatory` state consumed by `make_visibilities`.
The latitude/longitude only feed the external astropy transform inside
`set_pointings`, so the embedding keeps that call's outputs — the pointing
centers and `times_jd` — as state. -/
structure Obs where
  freqs : ℕ → ℝ
  Nfreqs : ℕ
  fov : Option ℝ
  beam : Beam
  pointing_centers : List (ℝ × ℝ)
  times_jd : ℕ → ℝ
  array : List Baseline

/-- The sky shell: a `(Npix, Nfreqs)` array of brightness temperatures in
Kelvin, indexed by HEALPix pixel and frequency channel. -/
structure Shell where
  Npix : ℕ
  Nfreqs : ℕ
  val : ℕ → ℕ → ℝ

/-- healpy's `npix2nside`: `some nside` when `Npix = 12 * nside^2` for a
positive integer `nside`, `none` (the `ValueError`) otherwise. -/
def npix2nside (Npix : ℕ) : Option ℕ :=
  (List.range (Npix + 1)).find? (fun ns => decide (0 < ns ∧ 12 * ns ^ 2 = Npix))

/-- One `(time index, baseline index, visibility vector)` tuple put on the
results queue by a worker. -/
structure Entry where
  ti : ℕ
  bi : ℕ
  vis : ℕ → ℂ

/-- The per-baseline reduction of `vis_calc`:
`vis = np.sum(shell[pix, :] * beam_cube * fringe_cube, axis=-2)`, one complex
value per frequency index.  `beam_cube` is the per-pixel beam value broadcast
over frequency, and every factor is elementwise over the selected pixels. -/
def vis_of (o : Obs) (shell : Shell) (azout : AzzaOut) (enu : Fin 3 → ℝ)
    (f : ℕ) : ℂ :=
  ((azout.pix.zip (azout.az.zip azout.za)).map (fun pt =>
    ((shell.val pt.1 f * beam_val o.beam pt.2.1 pt.2.2 none : ℝ) : ℂ) *
      fringe1 pt.2.1 pt.2.2 (o.freqs f) enu)).sum

/-- One iteration of the `vis_calc` worker loop: compute za/az/pix (this is
where an unset field of view raises), then put one entry per baseline of
`enumerate(self.array)`. -/
def vis_entries_at (E : HPExt) (o : Obs) (Nside : ℕ) (shell : Shell)
    (c : ℝ × ℝ) (ti : ℕ) : Except Err (List Entry) :=
  (calc_azza E o.fov Nside c).map (fun azout =>
    o.array.enum.map (fun p =>
      { ti := ti, bi := p.1, vis := vis_of o shell azout p.2.enu }))

/-- Embedding of the worker `observatory.vis_calc` over its chunk of
`(pointing center, time index)` pairs.  An exception kills the worker
process, so entries of later iterations are never put on the queue. -/
def vis_calc (E : HPExt) (o : Obs) (Nside : ℕ) (shell : Shell) :
    List ((ℝ × ℝ) × ℕ) → List Entry
  | [] => []
  | (c, ti) :: rest =>
    match vis_entries_at E o Nside shell c ti with
    | .error _ => []
    | .ok es => es ++ vis_calc E o Nside shell rest

/-- The `np.array_split` chunk sizes: splitting `n` items into `k` sections
gives `n % k` sections of size `n / k + 1` followed by sections of size
`n / k`. -/
def split_sizes (n k : ℕ) : List ℕ :=
  (List.range k).map (fun i => if i < n % k then n / k + 1 else n / k)

/-- Cut a list into consecutive chunks of the given sizes. -/
def take_drops {α : Type} : List α → List ℕ → List (List α)
  | _, [] => []
  | xs, s :: ss => xs.take s :: take_drops (xs.drop s) ss

/-- `np.array_split(l, k)`: `k` contiguous chunks with the numpy sizes.
`make_visibilities` applies it to the pointing centers and to
`range(Ntimes)` with the same `k`, which the embedding models as one split
of the zipped list. -/
def array_split {α : Type} (l : List α) (k : ℕ) : List (List α) :=
  take_drops l (split_sizes l.length k)

/-- The comparison realized by `np.lexsort((time_inds, baseline_inds))`:
ascending baseline index, ties broken by ascending time index. -/
def entry_le (e₁ e₂ : Entry) : Bool :=
  decide (e₁.bi < e₂.bi ∨ (e₁.bi = e₂.bi ∧ e₁.ti ≤ e₂.ti))

/-- The collection loop of `make_visibilities` applied to the final state of
the results queue: `iter(vis_array.get, None)` blocks forever when the queue
is empty (modelled as `none`); otherwise the `vis_array.empty()` break
drains every entry and `np.lexsort` reorders them by (baseline, time). -/
def drain_and_sort (queue : List Entry) : Option (List Entry) :=
  match queue with
  | [] => none
  | q => some (q.mergeSort entry_le)

/-- The pipeline of `observatory.make_visibilities` up to the sorted entry
list: check the frequency axis (the `assert`), derive `Nside` from the pixel
count (`ValueError` when invalid), split the pointing centers and time
indices into `Nprocs` chunks, run the workers, and drain and sort the
queue.  The queue holds the worker outputs concatenated in worker order. -/
def sorted_entries (E : HPExt) (o : Obs) (shell : Shell) (Nprocs : ℕ) :
    Except Err (Option (List Entry)) := do
  if shell.Nfreqs = o.Nfreqs then pure () else throw .assertionError
  match npix2nside shell.Npix with
  | none => throw .valueError
  | some Nside =>
    let Ntimes := o.pointing_centers.length
    let chunks := array_split (o.pointing_centers.zip (List.range Ntimes)) Nprocs
    let queue := (chunks.map (vis_calc E o Nside shell)).flatten
    pure (drain_and_sort queue)

/-- The value triple returned by `make_visibilities`. -/
structure VisOut where
  vis : List (ℕ → ℂ)
  time_array : List ℝ
  baseline_array : List ℕ

/-- Embedding of `observatory.make_visibilities`: the sorted entries give
the `(Nblts, Nfreqs)` visibility rows divided by the conversion factor
`jy2Tstr(freqs, 4 pi / Npix)`, next to `times_jd[time_inds]` and the sorted
baseline indices.  `none` models the controller blocking forever on an
empty results queue. -/
def make_visibilities (E : HPExt) (o : Obs) (shell : Shell) (Nprocs : ℕ) :
    Except Err (Option VisOut) :=
  (sorted_entries E o shell Nprocs).map (Option.map (fun srt =>
    let conv_fact : ℕ → ℝ := fun f =>
      jy2Tstr (o.freqs f) (4 * Real.pi / (shell.Npix : ℝ))
    { vis := srt.map (fun e => fun f => e.vis f / ((conv_fact f : ℝ) : ℂ)),
      time_array := srt.map (fun e => o.times_jd e.ti),
      baseline_array := srt.map (fun e => e.bi) }))

/-- The entry a worker computes for time index `ti` and baseline index `bi`
when the field of view is `fv` (the generator both queue and sorted output
are built from). -/
def entry_of (E : HPExt) (o : Obs) (fv : ℝ) (Nside : ℕ) (shell : Shell)
    (ti bi : ℕ) : Entry :=
  { ti := ti, bi := bi,
    vis := vis_of o shell
      (azza_calc E fv Nside (o.pointing_centers.getD ti (0, 0)))
      ((o.array.getD bi ⟨fun _ => 0⟩).enu) }

/-- The canonical baseline-major entry list: for each baseline index, each
time index in order. -/
def canonical_entries (E : HPExt) (o : Obs) (fv : ℝ) (Nside : ℕ)
    (shell : Shell) : List Entry :=
  (List.range o.array.length).flatMap (fun bi =>
    (List.range o.pointing_centers.length).map (fun ti =>
      entry_of E o fv Nside shell ti bi))

/-- The time-major entry list: the queue contents when every worker
completes, in production order. -/
def time_major_entries (E : HPExt) (o : Obs) (fv : ℝ) (Nside : ℕ)
    (shell : Shell) : List Entry :=
  (List.range o.pointing_centers.length).flatMap (fun ti =>
    (List.range o.array.length).map (fun bi =>
      entry_of E o fv Nside shell ti bi))

/-- The entries one worker iteration puts on the queue for the pair
`(pointing center, time index)`, when the field of view is `fv`. -/
def pair_entries (E : HPExt) (o : Obs) (fv : ℝ) (Nside : ℕ) (shell : Shell)
    (p : (ℝ × ℝ) × ℕ) : List Entry :=
  o.array.enum.map (fun q =>
    { ti := p.2, bi := q.1,
      vis := vis_of o shell (azza_calc E fv Nside p.1) q.2.enu })

/-- Chunks of the given sizes flatten back to a prefix of the list. -/
theorem take_drops_flatten {α : Type} (ss : List ℕ) :
    ∀ xs : List α, (take_drops xs ss).flatten = xs.take ss.sum := by
  induction ss with
  | nil => intro xs; simp [take_drops]
  | cons s ss ih =>
    intro xs
    simp only [take_drops, List.flatten_cons, List.sum_cons, ih, List.take_add]

/-- Sum of `k` terms that are `q + 1` below position `r` and `q` above it. -/
theorem sum_range_ite (q r k : ℕ) :
    ((List.range k).map (fun i => if i < r then q + 1 else q)).sum =
      k * q + min r k := by
  induction k with
  | zero => simp
  | succ k ih =>
    rw [List.range_succ, List.map_append, List.sum_append]
    simp only [List.map_cons, List.map_nil, List.sum_cons, List.sum_nil, ih]
    have hmul : (k + 1) * q = k * q + q := Nat.succ_mul k q
    rcases Nat.lt_or_ge k r with h | h
    · rw [if_pos h, Nat.min_eq_right h.le, Nat.min_eq_right h]
      omega
    · rw [if_neg (by omega), Nat.min_eq_left h, Nat.min_eq_left (by omega)]
      omega

/-- The numpy chunk sizes add up to the length being split. -/
theorem split_sizes_sum (n k : ℕ) (hk : 1 ≤ k) : (split_sizes n k).sum = n := by
  have hmod : n % k < k := Nat.mod_lt _ hk
  have hdm := Nat.div_add_mod n k
  rw [split_sizes, sum_range_ite, Nat.min_eq_left hmod.le]
  omega

/-- `np.array_split` loses no element and keeps the order: the chunks
flatten back to the original list. -/
theorem array_split_flatten {α : Type} (l : List α) (k : ℕ) (hk : 1 ≤ k) :
    (array_split l k).flatten = l := by
  rw [array_split, take_drops_flatten, split_sizes_sum _ _ hk, List.take_length]

/-- Flattening per-chunk `flatMap`s equals one `flatMap` over the
flattened chunks. -/
theorem flatten_map_flatMap {α β : Type} (f : α → List β) (L : List (List α)) :
    (L.map (fun l => l.flatMap f)).flatten = L.flatten.flatMap f := by
  induction L with
  | nil => simp
  | cons l L ih => simp [ih, List.flatMap_append]

/-- With the field of view set, no worker iteration raises, so a worker's
queue contribution is the concatenation of its per-pair entries. -/
theorem vis_calc_eq_flatMap (E : HPExt) (o : Obs) (Nside : ℕ) (shell : Shell)
    (fv : ℝ) (hfov : o.fov = some fv) :
    ∀ ps, vis_calc E o Nside shell ps =
      ps.flatMap (pair_entries E o fv Nside shell) := by
  intro ps
  induction ps with
  | nil => rfl
  | cons p rest ih =>
    obtain ⟨c, ti⟩ := p
    have hok : vis_entries_at E o Nside shell c ti =
        Except.ok (pair_entries E o fv Nside shell (c, ti)) := by
      rw [vis_entries_at, hfov]
      rfl
    simp only [vis_calc, hok, ih, List.flatMap_cons]

/-- The zip of a list with the range of its length, written positionally. -/
theorem zip_range_eq (l : List (ℝ × ℝ)) :
    l.zip (List.range l.length) =
      (List.range l.length).map (fun ti => (l.getD ti (0, 0), ti)) := by
  apply List.ext_getElem
  · simp [Nat.min_self]
  · intro n h₁ h₂
    have hn : n < l.length := by simpa using h₁
    simp only [List.getElem_zip, List.getElem_range, List.getElem_map]
    rw [List.getD_eq_getElem?_getD, List.getElem?_eq_getElem hn,
      Option.getD_some]

/-- `enumerate(self.array)` written positionally. -/
theorem enum_eq_range_map (l : List Baseline) :
    l.enum = (List.range l.length).map
      (fun bi => (bi, l.getD bi ⟨fun _ => 0⟩)) := by
  apply List.ext_getElem
  · simp
  · intro n h₁ h₂
    have hn : n < l.length := by simpa using h₁
    simp only [List.getElem_enum, List.getElem_map, List.getElem_range]
    rw [List.getD_eq_getElem?_getD, List.getElem?_eq_getElem hn,
      Option.getD_some]

/-- One worker iteration, written as a map over the baseline index range. -/
theorem pair_entries_eq (E : HPExt) (o : Obs) (fv : ℝ) (Nside : ℕ)
    (shell : Shell) (ti : ℕ) :
    pair_entries E o fv Nside shell (o.pointing_centers.getD ti (0, 0), ti) =
      (List.range o.array.length).map
        (fun bi => entry_of E o fv Nside shell ti bi) := by
  rw [pair_entries, enum_eq_range_map, List.map_map]
  rfl

/-- With a set field of view and at least one worker, the whole queue holds
exactly the time-major entry list. -/
theorem queue_eq_time_major (E : HPExt) (o : Obs) (Nside : ℕ) (shell : Shell)
    (fv : ℝ) (Nprocs : ℕ) (hfov : o.fov = some fv) (hk : 1 ≤ Nprocs) :
    ((array_split
        (o.pointing_centers.zip (List.range o.pointing_centers.length))
        Nprocs).map (vis_calc E o Nside shell)).flatten =
      time_major_entries E o fv Nside shell := by
  rw [List.map_congr_left
      (fun ps _ => vis_calc_eq_flatMap E o Nside shell fv hfov ps),
    flatten_map_flatMap, array_split_flatten _ _ hk, zip_range_eq,
    List.flatMap_map]
  simp only [pair_entries_eq]
  rfl

/-- Pulling the heads of a family of cons cells to the front, up to
permutation. -/
theorem flatMap_cons_perm {β γ : Type} (x : β → γ) (F : β → List γ) :
    ∀ l : List β,
      (l.flatMap (fun b => x b :: F b)).Perm (l.map x ++ l.flatMap F) := by
  intro l
  induction l with
  | nil => simp
  | cons b t ih =>
    simp only [List.flatMap_cons, List.map_cons, List.cons_append]
    refine List.Perm.cons _ ?_
    refine (ih.append_left (F b)).trans ?_
    rw [← List.append_assoc, ← List.append_assoc]
    exact List.perm_append_comm.append_right _

/-- Exchanging the two iteration orders of a rectangular `flatMap`/`map`
yields a permutation (the bag of produced elements is the same). -/
theorem flatMap_map_swap_perm {β γ δ : Type} (g : β → γ → δ) :
    ∀ (l₁ : List β) (l₂ : List γ),
      (l₁.flatMap (fun a => l₂.map (g a))).Perm
        (l₂.flatMap (fun b => l₁.map (fun a => g a b))) := by
  intro l₁
  induction l₁ with
  | nil =>
    intro l₂
    simp
  | cons a t ih =>
    intro l₂
    simp only [List.flatMap_cons, List.map_cons]
    exact (List.Perm.append_left (l₂.map (g a)) (ih l₂)).trans
      (flatMap_cons_perm (fun b => g a b)
        (fun b => t.map (fun a' => g a' b)) l₂).symm

/-- The sort key of an entry: `(baseline index, time index)`. -/
def ekey (e : Entry) : ℕ × ℕ := (e.bi, e.ti)

/-- Weak lexicographic order on sort keys. -/
def keyLe (p q : ℕ × ℕ) : Prop := p.1 < q.1 ∨ (p.1 = q.1 ∧ p.2 ≤ q.2)

/-- Strict lexicographic order on sort keys. -/
def keyLt (p q : ℕ × ℕ) : Prop := p.1 < q.1 ∨ (p.1 = q.1 ∧ p.2 < q.2)

/-- The boolean comparison of the sort agrees with `keyLe` on the keys. -/
theorem entry_le_iff (a b : Entry) :
    entry_le a b = true ↔ keyLe (ekey a) (ekey b) := by
  simp [entry_le, keyLe, ekey]

/-- Transitivity of the sort comparison. -/
theorem entry_le_trans (a b c : Entry) (h₁ : entry_le a b = true)
    (h₂ : entry_le b c = true) : entry_le a c = true := by
  simp only [entry_le, decide_eq_true_eq] at h₁ h₂ ⊢
  omega

/-- Totality of the sort comparison. -/
theorem entry_le_total (a b : Entry) :
    (entry_le a b || entry_le b a) = true := by
  simp only [entry_le, Bool.or_eq_true, decide_eq_true_eq]
  omega

/-- A list weakly sorted by key that is a permutation of a strictly
key-sorted list equals it. -/
theorem eq_of_perm_of_sorted_keys :
    ∀ {l₂ l₁ : List Entry}, l₁.Perm l₂ →
      l₁.Pairwise (fun a b => keyLe (ekey a) (ekey b)) →
      l₂.Pairwise (fun a b => keyLt (ekey a) (ekey b)) → l₁ = l₂ := by
  intro l₂
  induction l₂ with
  | nil =>
    intro l₁ hp _ _
    exact hp.eq_nil
  | cons b t ih =>
    intro l₁ hp h₁ h₂
    cases l₁ with
    | nil => exact absurd hp.symm.eq_nil (List.cons_ne_nil _ _)
    | cons a s =>
      have hab : a = b := by
        by_contra hne
        have hat : a ∈ t := by
          rcases List.mem_cons.mp (hp.subset (List.mem_cons_self a s)) with
            h | h
          · exact absurd h hne
          · exact h
        have hbs : b ∈ s := by
          rcases List.mem_cons.mp (hp.symm.subset (List.mem_cons_self b t))
            with h | h
          · exact absurd h.symm hne
          · exact h
        have hle : keyLe (ekey a) (ekey b) :=
          (List.pairwise_cons.mp h₁).1 b hbs
        have hlt : keyLt (ekey b) (ekey a) :=
          (List.pairwise_cons.mp h₂).1 a hat
        rcases hle with h | ⟨h, h'⟩ <;> rcases hlt with g | ⟨g, g'⟩ <;> omega
      subst hab
      rw [ih hp.cons_inv (List.pairwise_cons.mp h₁).2
        (List.pairwise_cons.mp h₂).2]

/-- The baseline-major rectangle of entries is strictly sorted by key. -/
theorem pairwise_keyLt_blocks (n : ℕ) (g : ℕ → ℕ → Entry)
    (hg : ∀ ti bi, ekey (g ti bi) = (bi, ti)) :
    ∀ m, ((List.range m).flatMap
        (fun bi => (List.range n).map (fun ti => g ti bi))).Pairwise
      (fun a b => keyLt (ekey a) (ekey b)) := by
  intro m
  induction m with
  | zero => simp
  | succ m ih =>
    rw [List.range_succ, List.flatMap_append, List.pairwise_append]
    refine ⟨ih, ?_, ?_⟩
    · simp only [List.flatMap_cons, List.flatMap_nil, List.append_nil]
      rw [List.pairwise_map]
      refine (List.pairwise_lt_range n).imp ?_
      intro ti tj hij
      rw [hg, hg]
      exact Or.inr ⟨rfl, hij⟩
    · intro x hx y hy
      simp only [List.mem_flatMap, List.mem_map, List.mem_range] at hx
      simp only [List.flatMap_cons, List.flatMap_nil, List.append_nil,
        List.mem_map, List.mem_range] at hy
      obtain ⟨bi, hbi, ti, _, rfl⟩ := hx
      obtain ⟨tj, _, rfl⟩ := hy
      rw [hg, hg]
      exact Or.inl hbi

/-- Length of a rectangular `flatMap`/`map`. -/
theorem length_flatMap_blocks {δ : Type} (n : ℕ) (f : ℕ → ℕ → δ) :
    ∀ m, ((List.range m).flatMap
      (fun a => (List.range n).map (f a))).length = m * n := by
  intro m
  induction m with
  | zero => simp
  | succ m ih =>
    rw [List.range_succ, List.flatMap_append, List.length_append, ih]
    simp [Nat.succ_mul]

/-- Element `bi * n + ti` of the rectangle indexed with `bi` outside and
`ti` inside. -/
theorem getElem_flatMap_blocks {δ : Type} (n : ℕ) (g : ℕ → ℕ → δ)
    (ti : ℕ) (hti : ti < n) :
    ∀ m (bi : ℕ), bi < m →
      ((List.range m).flatMap
        (fun b => (List.range n).map (fun t => g t b)))[bi * n + ti]? =
        some (g ti bi) := by
  intro m
  induction m with
  | zero => omega
  | succ m ih =>
    intro bi hbi
    rw [List.range_succ, List.flatMap_append]
    rcases Nat.lt_or_ge bi m with h | h
    · have hlen : bi * n + ti <
          ((List.range m).flatMap
            (fun b => (List.range n).map (fun t => g t b))).length := by
        rw [length_flatMap_blocks]
        have h1 : (bi + 1) * n ≤ m * n := Nat.mul_le_mul_right n (by omega)
        have h2 : (bi + 1) * n = bi * n + n := Nat.succ_mul bi n
        omega
      rw [List.getElem?_append, if_pos hlen, ih bi h]
    · have hbm : bi = m := by omega
      subst hbm
      have hlen : ((List.range bi).flatMap
          (fun b => (List.range n).map (fun t => g t b))).length = bi * n :=
        length_flatMap_blocks n _ bi
      rw [List.getElem?_append_right (by omega)]
      simp only [List.flatMap_cons, List.flatMap_nil, List.append_nil, hlen]
      rw [show bi * n + ti - bi * n = ti from by omega, List.getElem?_map,
        List.getElem?_eq_getElem (by simpa using hti)]
      simp

/-- A nonempty queue is drained completely and sorted. -/
theorem drain_and_sort_of_ne_nil (q : List Entry) (hq : q ≠ []) :
    drain_and_sort q = some (q.mergeSort entry_le) := by
  cases q with
  | nil => exact absurd rfl hq
  | cons a t => rfl

/-- The sorted queue of a worker run equals the canonical baseline-major
entry list, for every valid configuration and worker count. -/
theorem sorted_entries_eq_canonical (E : HPExt) (o : Obs) (shell : Shell)
    (Nprocs : ℕ) (fv : ℝ) (ns : ℕ)
    (hNf : shell.Nfreqs = o.Nfreqs)
    (hns : npix2nside shell.Npix = some ns)
    (hfov : o.fov = some fv)
    (hk : 1 ≤ Nprocs)
    (hNt : 1 ≤ o.pointing_centers.length)
    (hNb : 1 ≤ o.array.length) :
    sorted_entries E o shell Nprocs =
      Except.ok (some (canonical_entries E o fv ns shell)) := by
  have hqnn : time_major_entries E o fv ns shell ≠ [] := by
    intro hnil
    have hlen := congrArg List.length hnil
    rw [time_major_entries, length_flatMap_blocks] at hlen
    simp only [List.length_nil] at hlen
    have := Nat.mul_le_mul hNt hNb
    omega
  have hsort : (time_major_entries E o fv ns shell).mergeSort entry_le =
      canonical_entries E o fv ns shell := by
    apply eq_of_perm_of_sorted_keys
    · exact (List.mergeSort_perm _ entry_le).trans
        (flatMap_map_swap_perm (fun ti bi => entry_of E o fv ns shell ti bi)
          _ _)
    · exact (List.sorted_mergeSort entry_le_trans entry_le_total _).imp
        (fun h => (entry_le_iff _ _).mp h)
    · exact pairwise_keyLt_blocks o.pointing_centers.length
        (fun ti bi => entry_of E o fv ns shell ti bi) (fun _ _ => rfl)
        o.array.length
  rw [sorted_entries]
  simp only [hNf, if_true, hns]
  rw [queue_eq_time_major E o ns shell fv Nprocs hfov hk,
    drain_and_sort_of_ne_nil _ hqnn, hsort]
  rfl

/-- C1: for every valid configuration and every worker count from 1 up to
the number of times, the sorted output has exactly
`Ntimes * Nbls` rows — one per (time index, baseline index) pair, none
missing, none duplicated — in ascending (baseline index, time index)
order, and `make_visibilities` returns row-parallel arrays of that
length. -/
theorem make_visibilities_rows (E : HPExt) (o : Obs) (shell : Shell)
    (Nprocs : ℕ) (fv : ℝ) (ns : ℕ)
    (hNf : shell.Nfreqs = o.Nfreqs)
    (hns : npix2nside shell.Npix = some ns)
    (hfov : o.fov = some fv)
    (hk : 1 ≤ Nprocs)
    (hkt : Nprocs ≤ o.pointing_centers.length)
    (hNb : 1 ≤ o.array.length) :
    ∃ es : List Entry,
      sorted_entries E o shell Nprocs = Except.ok (some es) ∧
      es.length = o.pointing_centers.length * o.array.length ∧
      es.map ekey = (List.range o.array.length).flatMap (fun bi =>
        (List.range o.pointing_centers.length).map (fun ti => (bi, ti))) ∧
      (es.map ekey).Pairwise keyLt ∧
      (∀ bi ti, bi < o.array.length → ti < o.pointing_centers.length →
        (bi, ti) ∈ es.map ekey) ∧
      (es.map ekey).Nodup ∧
      ∃ out : VisOut,
        make_visibilities E o shell Nprocs = Except.ok (some out) ∧
        out.vis.length = o.pointing_centers.length * o.array.length ∧
        out.time_array.length =
          o.pointing_centers.length * o.array.length ∧
        out.baseline_array.length =
          o.pointing_centers.length * o.array.length := by
  have hNt : 1 ≤ o.pointing_centers.length := le_trans hk hkt
  have hmain := sorted_entries_eq_canonical E o shell Nprocs fv ns hNf hns
    hfov hk hNt hNb
  refine ⟨canonical_entries E o fv ns shell, hmain, ?_, ?_, ?_, ?_, ?_, ?_⟩
  · rw [canonical_entries, length_flatMap_blocks, Nat.mul_comm]
  · rw [canonical_entries, List.map_flatMap]
    simp only [List.map_map]
    rfl
  · rw [List.pairwise_map]
    exact pairwise_keyLt_blocks o.pointing_centers.length
      (fun ti bi => entry_of E o fv ns shell ti bi) (fun _ _ => rfl)
      o.array.length
  · intro bi ti hbi hti
    rw [canonical_entries, List.map_flatMap]
    simp only [List.mem_flatMap, List.mem_map, List.mem_range]
    exact ⟨bi, hbi, entry_of E o fv ns shell ti bi, ⟨ti, hti, rfl⟩, rfl⟩
  · have hpw : (canonical_entries E o fv ns shell).Pairwise
        (fun a b => keyLt (ekey a) (ekey b)) :=
      pairwise_keyLt_blocks o.pointing_centers.length
        (fun ti bi => entry_of E o fv ns shell ti bi) (fun _ _ => rfl)
        o.array.length
    have h2 : (canonical_entries E o fv ns shell).Pairwise
        (fun a b => ekey a ≠ ekey b) := by
      refine hpw.imp ?_
      intro a b hlt heq
      rcases hlt with h | ⟨h, h'⟩
      · rw [heq] at h
        exact lt_irrefl _ h
      · rw [heq] at h'
        exact lt_irrefl _ h'
    exact List.pairwise_map.mpr h2
  · have hvis : make_visibilities E o shell Nprocs = Except.ok (some
        { vis := (canonical_entries E o fv ns shell).map (fun e => fun f =>
            e.vis f /
              ((jy2Tstr (o.freqs f) (4 * Real.pi / (shell.Npix : ℝ)) : ℝ) : ℂ)),
          time_array := (canonical_entries E o fv ns shell).map
            (fun e => o.times_jd e.ti),
          baseline_array := (canonical_entries E o fv ns shell).map
            (fun e => e.bi) }) := by
      rw [make_visibilities, hmain]
      rfl
    refine ⟨_, hvis, ?_, ?_, ?_⟩
    · simp only [List.length_map]
      rw [canonical_entries, length_flatMap_blocks, Nat.mul_comm]
    · simp only [List.length_map]
      rw [canonical_entries, length_flatMap_blocks, Nat.mul_comm]
    · simp only [List.length_map]
      rw [canonical_entries, length_flatMap_blocks, Nat.mul_comm]

/-- C3: with a fixed valid input, any two worker counts (at least 1)
produce identical results — visibility rows, time array and baseline
array. -/
theorem make_visibilities_worker_count_invariant (E : HPExt) (o : Obs)
    (shell : Shell) (p q : ℕ) (fv : ℝ) (ns : ℕ)
    (hNf : shell.Nfreqs = o.Nfreqs)
    (hns : npix2nside shell.Npix = some ns)
    (hfov : o.fov = some fv)
    (hp : 1 ≤ p) (hq : 1 ≤ q)
    (hNt : 1 ≤ o.pointing_centers.length)
    (hNb : 1 ≤ o.array.length) :
    make_visibilities E o shell p = make_visibilities E o shell q := by
  rw [make_visibilities, make_visibilities,
    sorted_entries_eq_canonical E o shell p fv ns hNf hns hfov hp hNt hNb,
    sorted_entries_eq_canonical E o shell q fv ns hNf hns hfov hq hNt hNb]

/-- C2: the visibility value returned for a (time, baseline, frequency)
triple is the sum over the selected pixels of
`sky[pixel, f] * beam[pixel] * fringe[pixel, f]`, divided by `jy2Tstr` at
that frequency with the pixel solid angle `4 pi / Npix` as reference area. -/
theorem make_visibilities_value (E : HPExt) (o : Obs) (shell : Shell)
    (Nprocs : ℕ) (fv : ℝ) (ns : ℕ)
    (hNf : shell.Nfreqs = o.Nfreqs)
    (hns : npix2nside shell.Npix = some ns)
    (hfov : o.fov = some fv)
    (hk : 1 ≤ Nprocs)
    (ti bi : ℕ)
    (hti : ti < o.pointing_centers.length)
    (hbi : bi < o.array.length)
    (azout : AzzaOut)
    (hcalc : calc_azza E o.fov ns (o.pointing_centers.getD ti (0, 0)) =
      Except.ok azout)
    (out : VisOut)
    (hout : make_visibilities E o shell Nprocs = Except.ok (some out))
    (f : ℕ) :
    out.vis.getD (bi * o.pointing_centers.length + ti) (fun _ => 0) f =
      ((azout.pix.zip (azout.az.zip azout.za)).map (fun pt =>
        ((shell.val pt.1 f * beam_val o.beam pt.2.1 pt.2.2 none : ℝ) : ℂ) *
          fringe1 pt.2.1 pt.2.2 (o.freqs f)
            ((o.array.getD bi ⟨fun _ => 0⟩).enu))).sum /
        ((jy2Tstr (o.freqs f) (4 * Real.pi / (shell.Npix : ℝ)) : ℝ) : ℂ) := by
  have hNt : 1 ≤ o.pointing_centers.length := by omega
  have hNb : 1 ≤ o.array.length := by omega
  have hmain := sorted_entries_eq_canonical E o shell Nprocs fv ns hNf hns
    hfov hk hNt hNb
  rw [hfov] at hcalc
  have haz : azza_calc E fv ns (o.pointing_centers.getD ti (0, 0)) = azout :=
    Except.ok.inj hcalc
  have hvis : make_visibilities E o shell Nprocs = Except.ok (some
      { vis := (canonical_entries E o fv ns shell).map (fun e => fun fr =>
          e.vis fr /
            ((jy2Tstr (o.freqs fr) (4 * Real.pi / (shell.Npix : ℝ)) : ℝ) : ℂ)),
        time_array := (canonical_entries E o fv ns shell).map
          (fun e => o.times_jd e.ti),
        baseline_array := (canonical_entries E o fv ns shell).map
          (fun e => e.bi) }) := by
    rw [make_visibilities, hmain]
    rfl
  rw [hvis] at hout
  have hout2 := Option.some.inj (Except.ok.inj hout)
  have hget : (canonical_entries E o fv ns shell)[bi *
      o.pointing_centers.length + ti]? =
      some (entry_of E o fv ns shell ti bi) := by
    rw [canonical_entries]
    exact getElem_flatMap_blocks o.pointing_centers.length
      (fun t b => entry_of E o fv ns shell t b) ti hti o.array.length bi hbi
  have hviseq : out.vis =
      (canonical_entries E o fv ns shell).map (fun e => fun fr =>
        e.vis fr /
          ((jy2Tstr (o.freqs fr) (4 * Real.pi / (shell.Npix : ℝ)) : ℝ) : ℂ)) :=
    (congrArg VisOut.vis hout2).symm
  rw [hviseq, List.getD_eq_getElem?_getD, List.getElem?_map, hget]
  rw [← haz]
  rfl

/-- With an unset field of view every worker dies on its first iteration and
puts nothing on the queue. -/
theorem vis_calc_fov_none (E : HPExt) (o : Obs) (Nside : ℕ) (shell : Shell)
    (hfov : o.fov = none) :
    ∀ ps, vis_calc E o Nside shell ps = [] := by
  intro ps
  cases ps with
  | nil => rfl
  | cons p rest =>
    obtain ⟨c, ti⟩ := p
    have herr : vis_entries_at E o Nside shell c ti =
        Except.error Err.attributeError := by
      rw [vis_entries_at, hfov]
      rfl
    simp only [vis_calc, herr]

/-- Flattening per-chunk empty lists gives the empty queue. -/
theorem flatten_map_nil {α : Type} (L : List α) :
    (L.map (fun _ => ([] : List Entry))).flatten = [] := by
  induction L with
  | nil => rfl
  | cons a t ih => simpa using ih

/-- C7 amended: the frequency-axis `assert` and the `npix2nside` check abort
`make_visibilities` with a hard error before any computation, but an unset
field of view does not: the `AttributeError` is raised inside each worker's
`calc_azza` (before any per-pixel work), the workers die, and the controller
blocks forever on the empty results queue instead of raising. -/
theorem make_visibilities_error_behavior (E : HPExt) (o : Obs)
    (shell : Shell) (Nprocs : ℕ) :
    (shell.Nfreqs ≠ o.Nfreqs →
      make_visibilities E o shell Nprocs = Except.error Err.assertionError) ∧
    (shell.Nfreqs = o.Nfreqs → npix2nside shell.Npix = none →
      make_visibilities E o shell Nprocs = Except.error Err.valueError) ∧
    (∀ ns, shell.Nfreqs = o.Nfreqs → npix2nside shell.Npix = some ns →
      o.fov = none → make_visibilities E o shell Nprocs = Except.ok none) := by
  refine ⟨?_, ?_, ?_⟩
  · intro hne
    rw [make_visibilities, sorted_entries, if_neg hne]
    rfl
  · intro hNf hnone
    rw [make_visibilities, sorted_entries]
    simp only [hNf, if_true, hnone]
    rfl
  · intro ns hNf hns hfov
    rw [make_visibilities, sorted_entries]
    simp only [hNf, if_true, hns]
    rw [List.map_congr_left
        (fun ps _ => vis_calc_fov_none E o ns shell hfov ps),
      flatten_map_nil]
    rfl

/-- A concrete healpy stub for evaluating the pipeline: every disc query
selects the single pixel `0`, whose direction is `(0, 0, 1)`. -/
def hp_example : HPExt :=
  ⟨fun _ _ => ⟨1, 0, 0⟩, fun _ _ _ => [0], fun _ _ => ⟨0, 0, 1⟩⟩

/-- A concrete observatory: one pointing center, one baseline, one
frequency, uniform beam, 100-degree field of view. -/
def obs_example : Obs :=
  { freqs := fun _ => 100000000
    Nfreqs := 1
    fov := some 100
    beam := .uniform
    pointing_centers := [(0, 0)]
    times_jd := fun _ => 2451545
    array := [⟨fun _ => 14⟩] }

/-- The same observatory with the field of view left unset. -/
def obs_nofov : Obs := { obs_example with fov := none }

/-- A valid shell: `Npix = 12` (`nside = 1`), one frequency channel. -/
def shell_example : Shell := ⟨12, 1, fun _ _ => 1⟩

/-- A shell whose frequency axis disagrees with the observatory. -/
def shell_freq_mismatch : Shell := ⟨12, 2, fun _ _ => 1⟩

/-- A shell whose pixel count is not `12 * nside^2`. -/
def shell_bad_npix : Shell := ⟨13, 1, fun _ _ => 1⟩

/-- C7 counterexample: with a valid shell but an unset field of view,
`make_visibilities` does not fail with a hard error — it hangs (the `none`
outcome), so the claim that every such configuration error aborts with a
hard error is false on the code. -/
theorem make_visibilities_fov_unset_no_error :
    make_visibilities hp_example obs_nofov shell_example 1 = Except.ok none ∧
    ¬ ∃ e : Err, make_visibilities hp_example obs_nofov shell_example 1 =
        Except.error e := by
  have h : make_visibilities hp_example obs_nofov shell_example 1 =
      Except.ok none := by
    rfl
  refine ⟨h, ?_⟩
  rintro ⟨e, he⟩
  rw [h] at he
  exact Except.noConfusion he

/-- Witness for C7 at the three concrete configurations. -/
theorem make_visibilities_error_behavior_witness :
    make_visibilities hp_example obs_example shell_freq_mismatch 1 =
      Except.error Err.assertionError ∧
    make_visibilities hp_example obs_example shell_bad_npix 1 =
      Except.error Err.valueError ∧
    make_visibilities hp_example obs_nofov shell_example 1 =
      Except.ok none :=
  ⟨(make_visibilities_error_behavior hp_example obs_example
      shell_freq_mismatch 1).1 (by decide),
   (make_visibilities_error_behavior hp_example obs_example
      shell_bad_npix 1).2.1 rfl (by decide),
   (make_visibilities_error_behavior hp_example obs_nofov
      shell_example 1).2.2 1 rfl (by decide) rfl⟩

/-- Witness for C1: the concrete one-time, one-baseline run with one
worker. -/
theorem make_visibilities_rows_witness :
    ∃ es : List Entry,
      sorted_entries hp_example obs_example shell_example 1 =
        Except.ok (some es) ∧
      es.length = obs_example.pointing_centers.length *
        obs_example.array.length ∧
      es.map ekey = (List.range obs_example.array.length).flatMap (fun bi =>
        (List.range obs_example.pointing_centers.length).map
          (fun ti => (bi, ti))) ∧
      (es.map ekey).Pairwise keyLt ∧
      (∀ bi ti, bi < obs_example.array.length →
        ti < obs_example.pointing_centers.length → (bi, ti) ∈ es.map ekey) ∧
      (es.map ekey).Nodup ∧
      ∃ out : VisOut,
        make_visibilities hp_example obs_example shell_example 1 =
          Except.ok (some out) ∧
        out.vis.length = obs_example.pointing_centers.length *
          obs_example.array.length ∧
        out.time_array.length = obs_example.pointing_centers.length *
          obs_example.array.length ∧
        out.baseline_array.length = obs_example.pointing_centers.length *
          obs_example.array.length :=
  make_visibilities_rows hp_example obs_example shell_example 1 100 1 rfl
    (by decide) rfl le_rfl (by decide) (by decide)

/-- Witness for C3: one versus two workers on the concrete run. -/
theorem make_visibilities_worker_count_invariant_witness :
    make_visibilities hp_example obs_example shell_example 1 =
      make_visibilities hp_example obs_example shell_example 2 :=
  make_visibilities_worker_count_invariant hp_example obs_example
    shell_example 1 2 100 1 rfl (by decide) rfl le_rfl (by decide)
    (by decide) (by decide)

/-- The za/az/pix triple of the concrete run's only pointing. -/
def azout_example : AzzaOut :=
  azza_calc hp_example 100 1 (obs_example.pointing_centers.getD 0 (0, 0))

/-- The output record of the concrete run. -/
def visout_example : VisOut :=
  { vis := (canonical_entries hp_example obs_example 100 1
      shell_example).map (fun e => fun fr =>
        e.vis fr / ((jy2Tstr (obs_example.freqs fr)
          (4 * Real.pi / (shell_example.Npix : ℝ)) : ℝ) : ℂ)),
    time_array := (canonical_entries hp_example obs_example 100 1
      shell_example).map (fun e => obs_example.times_jd e.ti),
    baseline_array := (canonical_entries hp_example obs_example 100 1
      shell_example).map (fun e => e.bi) }

/-- Witness for C2: the concrete run's row `(time 0, baseline 0)` at
frequency index `0`. -/
theorem make_visibilities_value_witness :
    visout_example.vis.getD (0 * obs_example.pointing_centers.length + 0)
        (fun _ => 0) 0 =
      ((azout_example.pix.zip (azout_example.az.zip azout_example.za)).map
        (fun pt =>
          ((shell_example.val pt.1 0 *
            beam_val obs_example.beam pt.2.1 pt.2.2 none : ℝ) : ℂ) *
            fringe1 pt.2.1 pt.2.2 (obs_example.freqs 0)
              ((obs_example.array.getD 0 ⟨fun _ => 0⟩).enu))).sum /
        ((jy2Tstr (obs_example.freqs 0)
          (4 * Real.pi / (shell_example.Npix : ℝ)) : ℝ) : ℂ) :=
  make_visibilities_value hp_example obs_example shell_example 1 100 1 rfl
    (by decide) rfl le_rfl 0 0 (by decide) (by decide) azout_example rfl
    visout_example
    (by rw [make_visibilities,
          sorted_entries_eq_canonical hp_example obs_example shell_example
            1 100 1 rfl (by decide) rfl le_rfl (by decide) (by decide)]
        rfl)
    0

end
